import Mathlib

/-!
# Verification of the ccwc streaming counting engine

Shallow embedding of the ccwc word-count tool:

* `src/algorithm/counter_state_machine.{hpp,cpp}` — the chain of counter
  state machines (lines → words → multibyte → bytes);
* `src/algorithm/processor.hpp` — the driver `doCount`;
* `src/algorithm/universal_input_stream.cpp` — strategy selection and the
  byte-pull loops of the buffered / memory-mapped streams;
* `src/argument_parser/argument_parser.cpp` — `parseArguments`,
  `Arguments::addInputFile`, `Arguments::addStdin`;
* `src/output_formatter/output_formatter.cpp` — `OutputFormatter::formatFile`
  and the format-handler chain;
* `src/main.cpp` — top-level control flow and exit code.

Bytes are modelled as `Nat` (an `unsigned char` in the source; every byte the
program ever feeds is `< 256`, and all byte-level definitions below agree with
the source on that range).  `std::string` values are modelled as `List Char`
so that output assembly is ordinary list concatenation.
-/

namespace Ccwc

/-- The `Counter` record (`src/algorithm/counter.hpp`, whose four fields
`lines`, `words`, `multibyte`, `bytes` and field-wise `operator+=` are fixed
by their uses in `counter_state_machine.cpp`, `output_formatter.cpp` and the
spec's `CountRecord`). -/
structure Counter where
  lines : Nat
  words : Nat
  multibyte : Nat
  bytes : Nat
deriving Repr, DecidableEq

/-- A zero-initialised `Counter()` as created per input in `doCount`. -/
def Counter.zero : Counter := ⟨0, 0, 0, 0⟩

/-- Field-wise `operator+=`, used by `formatFile` to build the total row and
by the spec's round-trip property. -/
instance : Add Counter := ⟨fun a b => ⟨a.lines + b.lines, a.words + b.words,
  a.multibyte + b.multibyte, a.bytes + b.bytes⟩⟩

@[simp] theorem Counter.add_lines (a b : Counter) : (a + b).lines = a.lines + b.lines := rfl
@[simp] theorem Counter.add_words (a b : Counter) : (a + b).words = a.words + b.words := rfl
@[simp] theorem Counter.add_multibyte (a b : Counter) :
    (a + b).multibyte = a.multibyte + b.multibyte := rfl
@[simp] theorem Counter.add_bytes (a b : Counter) : (a + b).bytes = a.bytes + b.bytes := rfl

/-- `std::isspace` in the C locale, on `unsigned char` values: space (0x20)
and the five control characters 0x09–0x0D.  Used by
`WordStateMachine::updateCounter`. -/
def isspace (b : Nat) : Bool := b == 32 || (decide (9 ≤ b) && decide (b ≤ 13))

/-- `MultibyteStateMachine::utf8CharLength`
(`counter_state_machine.cpp:156-179`): classify a leading byte by its high
bits; `0` means invalid leading byte. -/
def utf8CharLength (firstByte : Nat) : Nat :=
  if firstByte &&& 0x80 = 0x00 then 1
  else if firstByte &&& 0xE0 = 0xC0 then 2
  else if firstByte &&& 0xF0 = 0xE0 then 3
  else if firstByte &&& 0xF8 = 0xF0 then 4
  else 0

/-- Continuation-byte test `(ele & UTF8_CONT_MASK) == UTF8_CONT_VALUE`
(`counter_state_machine.cpp:202`). -/
def isCont (b : Nat) : Bool := b &&& 0xC0 == 0x80

/-- One iteration of the scanning loop of
`MultibyteStateMachine::fullCharsByteCount`
(`counter_state_machine.cpp:188-209`) at a position holding byte `b`
followed by `rest`: classify `b` with `utf8CharLength`; on a valid leading
byte with all `charLen - 1` continuation bytes present and well-formed,
return the sequence length and the remainder; return `none` on an invalid
leading byte, an incomplete tail (`pos + charLen > len`), or an invalid
continuation byte. -/
def takeSeq (b : Nat) (rest : List Nat) : Option (Nat × List Nat) :=
  if utf8CharLength b = 1 then some (1, rest)
  else if utf8CharLength b = 2 then
    match rest with
    | c1 :: r => if isCont c1 then some (2, r) else none
    | [] => none
  else if utf8CharLength b = 3 then
    match rest with
    | c1 :: c2 :: r => if isCont c1 && isCont c2 then some (3, r) else none
    | _ => none
  else if utf8CharLength b = 4 then
    match rest with
    | c1 :: c2 :: c3 :: r =>
        if isCont c1 && isCont c2 && isCont c3 then some (4, r) else none
    | _ => none
  else none

/-- Recursion core of `fullCharsByteCount`.  The `fuel` argument only makes
the recursion structural; every step consumes at least one byte, so any
`fuel ≥ length` computes the loop exactly (see `fullCharsGo_fuel`). -/
def fullCharsGo : Nat → List Nat → Nat
  | _, [] => 0
  | 0, _ => 0
  | fuel + 1, b :: rest =>
    match takeSeq b rest with
    | some (k, r) => k + fullCharsGo fuel r
    | Option.none => 0

/-- `MultibyteStateMachine::fullCharsByteCount`
(`counter_state_machine.cpp:183-211`): the number of bytes of the longest
prefix of the buffer consisting of whole, structurally valid UTF-8
sequences; the loop stops at an invalid leading byte, an incomplete
trailing sequence or an invalid continuation byte. -/
def fullCharsByteCount (l : List Nat) : Nat := fullCharsGo l.length l

/-- Whether boost's UTF-8 decoder (`boost::locale::utf::utf_traits<char>`)
accepts a *structurally valid* sequence, given its leading byte and its
first continuation byte (for multi-byte sequences, acceptance depends only
on these two).  The decoder rejects, beyond ccwc's structural checks:
leading bytes `0xC0`/`0xC1` and `0xF5`–`0xFF` (`trail_length` returns −1),
overlong encodings (`width(c) != trail_size + 1`, i.e. lead `0xE0` with
first continuation below `0xA0`, or lead `0xF0` with first continuation
below `0x90`), surrogates (lead `0xED` with first continuation at or above
`0xA0`) and code points above `U+10FFFF` (lead `0xF4` with first
continuation at or above `0x90`); a rejected sequence decodes to nothing
under the `skip` method.  ASCII bytes are always accepted (the second
argument is ignored). -/
def boostAccepts (lead c1 : Nat) : Bool :=
  if lead &&& 0x80 = 0x00 then true
  else if lead &&& 0xE0 = 0xC0 then decide (0xC2 ≤ lead)
  else if lead &&& 0xF0 = 0xE0 then
    !(lead == 0xE0 && decide (c1 < 0xA0)) && !(lead == 0xED && decide (0xA0 ≤ c1))
  else if lead &&& 0xF8 = 0xF0 then
    decide (lead ≤ 0xF4) && !(lead == 0xF0 && decide (c1 < 0x90)) &&
      !(lead == 0xF4 && decide (0x90 ≤ c1))
  else false

/-- `boostAccepts` applied to a sequence given as a byte list. -/
def seqAccepted (s : List Nat) : Bool :=
  boostAccepts (s.headD 0) (s.tail.headD 0)

/-- Recursion core of `wideSize`: a structurally valid sequence contributes
one code point when boost's decoder accepts it and zero when the decoder
rejects and skips it; an undecodable leading byte is skipped and the
decoder resynchronises at the next byte. -/
def wideGo : Nat → List Nat → Nat
  | _, [] => 0
  | 0, _ => 0
  | fuel + 1, b :: rest =>
    match takeSeq b rest with
    | some (_, r) => (if boostAccepts b (rest.headD 0) then 1 else 0) + wideGo fuel r
    | Option.none => wideGo fuel rest

/-- The length of `boost::locale::conv::to_utf<wchar_t>(s, encoding)` on a
UTF-8 buffer: the number of code points decoded (`wchar_t` is 32-bit, one
per code point).  boost's converter is invoked with its default
`method_type` (`skip`), which drops the bytes of an undecodable position
and resynchronises, and therefore never throws `conversion_error` — the
`catch` branch of `flushBuffer` (`counter_state_machine.cpp:235-239`) is
unreachable and is not modelled.  `flushBuffer` only ever converts prefixes
delivered by `fullCharsByteCount`, i.e. concatenations of structurally
valid sequences; on every such argument this function computes boost's
count exactly: each sequence the decoder accepts (see `boostAccepts`)
yields one code point, and each sequence it rejects is skipped within its
own bytes — the lead alone for a bad `trail_length`, the whole sequence for
an overlong/surrogate/out-of-range value — contributing zero either way
without crossing a sequence boundary. -/
def wideSize (l : List Nat) : Nat := wideGo l.length l

/-- `MAX_BUFFER_SIZE` (`counter_state_machine.cpp:147`). -/
def MAX_BUFFER_SIZE : Nat := 4096

/-- `MultibyteStateMachine::flushBuffer` acting on the pair
(UTF-8 buffer `m_buffer`, `counter.multibyte`)
(`counter_state_machine.cpp:213-240`): convert the whole-sequence prefix,
add its decoded length to the count and erase it from the buffer; do nothing
when the buffer is empty or the prefix is empty. -/
def flushBuffer (p : List Nat × Nat) : List Nat × Nat :=
  if p.1.isEmpty then p
  else
    let k := fullCharsByteCount p.1
    if k = 0 then p
    else (p.1.drop k, p.2 + wideSize (p.1.take k))

/-- One byte through the multibyte concern: `updateState` appends the byte
to `m_buffer` (`counter_state_machine.cpp:249-253`); `updateCounter` flushes
when the buffer has reached `MAX_BUFFER_SIZE`
(`counter_state_machine.cpp:256-263`). -/
def mbStep (p : List Nat × Nat) (b : Nat) : List Nat × Nat :=
  let buf := p.1 ++ [b]
  if MAX_BUFFER_SIZE ≤ buf.length then flushBuffer (buf, p.2) else (buf, p.2)

/-- The multibyte concern over a whole byte list. -/
def mbRun (l : List Nat) (p : List Nat × Nat) : List Nat × Nat := l.foldl mbStep p

/-- `MultibyteStateMachine::finalize` (`counter_state_machine.cpp:271-280`)
on the (buffer, count) pair: flush, then count a non-empty remaining
(incomplete) tail as one unit. -/
def mbFinalize (p : List Nat × Nat) : Nat :=
  let q := flushBuffer p
  if q.1.isEmpty then q.2 else q.2 + 1

/-- The persistent state of the counter chain between bytes: `m_inWord` of
`WordStateMachine` and `m_buffer` of `MultibyteStateMachine`.  (Each
machine's `m_byte` member is written by `updateState` and read only by the
same iteration's `updateCounter` — `doCount` always calls the two
back-to-back — so it is passed directly to `chainStep` instead of being
stored.) -/
structure ChainState where
  inWord : Bool
  mbBuffer : List Nat
deriving Repr, DecidableEq

/-- The freshly built / `reset()` chain state. -/
def chainReset : ChainState := ⟨false, []⟩

/-- One byte through the whole chain, in the order built by
`buildCounterStateMachineChain` (`counter_state_machine.cpp:340-349`):
`LineStateMachine → WordStateMachine → MultibyteStateMachine →
ByteStateMachine`, `updateState` first, then `updateCounter`. -/
def chainStep (b : Nat) (s : ChainState) (c : Counter) : ChainState × Counter :=
  -- LineStateMachine::updateCounter (counter_state_machine.cpp:45-52)
  let c := if b == 10 then { c with lines := c.lines + 1 } else c
  -- WordStateMachine::updateCounter (counter_state_machine.cpp:100-115)
  let iw := if isspace b then false else true
  let c := if isspace b then c
           else if s.inWord then c else { c with words := c.words + 1 }
  -- MultibyteStateMachine::updateState + updateCounter
  let q := mbStep (s.mbBuffer, c.multibyte) b
  let c := { c with multibyte := q.2 }
  -- ByteStateMachine::updateCounter (counter_state_machine.cpp:309-313)
  let c := { c with bytes := c.bytes + 1 }
  (⟨iw, q.1⟩, c)

/-- Feed a byte list through the chain from a given state, threading the
counter, as the driver's `while` loop does. -/
def runChain (l : List Nat) (s : ChainState) (c : Counter) : ChainState × Counter :=
  l.foldl (fun sc b => chainStep b sc.1 sc.2) (s, c)

/-- The counter produced for one healthy input by the loop body of `doCount`
(`processor.hpp:27-45`): a zeroed `Counter`, every byte fed through the
chain.  No `finalize` call appears in `doCount`. -/
def countOne (l : List Nat) : Counter := (runChain l chainReset Counter.zero).2

/-- `doCount` (`processor.hpp:19-48`): one chain, built once; per input a
zeroed counter; for an unhealthy input the loop breaks before any
`updateState`/`updateCounter` call, leaving the zero counter; the chain is
`reset()` after every input (so each input starts from `chainReset`). -/
def doCount (inputs : List (Bool × List Nat)) : List Counter :=
  (inputs.foldl
    (fun (acc : List Counter × ChainState) inp =>
      let r := if inp.1 then runChain inp.2 acc.2 Counter.zero
               else (acc.2, Counter.zero)
      (acc.1 ++ [r.2], chainReset))
    ([], chainReset)).1

/-- The end-of-stream contract of the engine (§4.2 of the spec): feed every
byte, then run the `finalize` chain, in which only
`MultibyteStateMachine::finalize` (`counter_state_machine.cpp:271-280`)
touches the counter.  This is what `doCount` would produce if it invoked
`finalize` after the last byte. -/
def countFinal (l : List Nat) : Counter :=
  let r := runChain l chainReset Counter.zero
  { r.2 with multibyte := mbFinalize (r.1.mbBuffer, r.2.multibyte) }

/-! ## Input streams (`universal_input_stream.cpp`) -/

/-- The three concrete `UniversalInputStream` strategies. -/
inductive StreamKind where
  | buffered
  | mapped
  | stdinKind
deriving Repr, DecidableEq

/-- `MAX_MEMORY_MAPPED_FILE_SIZE` (`universal_input_stream.cpp:349-350`):
`100 * 1024 * 1024` bytes. -/
def MAX_MEMORY_MAPPED_FILE_SIZE : Nat := 100 * 1024 * 1024

/-- `createInputStream(filename)` (`universal_input_stream.cpp:353-372`)
after `std::filesystem::file_size` has succeeded: the strategy is chosen
purely from the file size against the fixed threshold. -/
def createInputStream (fileSize : Nat) : StreamKind :=
  if fileSize < MAX_MEMORY_MAPPED_FILE_SIZE then StreamKind.buffered
  else StreamKind.mapped

/-- The byte sequence delivered by repeated
`BufferedFileInputStream::nextByte` (`universal_input_stream.cpp:190-198`):
`m_stream.get` yields each byte of the file in order and fails at EOF. -/
def bufferedReadAll (content : List Nat) : List Nat := content

/-- The byte sequence delivered by repeated
`MemoryMappedFileInputStream::nextByte`
(`universal_input_stream.cpp:309-318`) starting from position `pos`:
bounds-checked indexing `m_map.data()[m_pos++]` until `m_pos ≥ m_map.size()`. -/
def mappedReadFrom (content : List Nat) : Nat → List Nat
  | pos =>
    if h : pos < content.length then
      content.getD pos 0 :: mappedReadFrom content (pos + 1)
    else []
termination_by pos => content.length - pos
decreasing_by omega

/-- The whole byte sequence of a mapped stream (`m_pos` starts at `0`). -/
def mappedReadAll (content : List Nat) : List Nat := mappedReadFrom content 0

/-! ## Argument parsing (`argument_parser.cpp`) and input objects -/

/-- What `OutputFormatter::IsOptionEnabled` can observe of the format-option
set `m_format_options`: one membership flag per `OutputFormatOptions`
enumerator. -/
structure Opts where
  lines : Bool
  words : Bool
  multibyte : Bool
  bytes : Bool
deriving Repr, DecidableEq

/-- The empty option set of a fresh `OutputFormatter`. -/
def Opts.none : Opts := ⟨false, false, false, false⟩

/-- `OutputFormatter::normalizeFormattingOptions`
(`output_formatter.cpp:162-170`): an empty set becomes
{lines, words, bytes}. -/
def normalizeFormattingOptions (o : Opts) : Opts :=
  if o = Opts.none then ⟨true, true, false, true⟩ else o

/-- One element of `Arguments::m_input_data_objects`: the `HealthStatus`
(`mIsHealthy`, `mErrorMessage`) together with what the formatter observes of
the attached `UniversalInputStream` (`isStdin()` and `name()`). -/
structure InputDataObject where
  healthy : Bool
  errMsg : List Char
  stdinLike : Bool
  name : List Char
deriving Repr, DecidableEq

/-- The object `Arguments::addStdin` appends
(`argument_parser.cpp:157-166`): a healthy `StandardInputStream`
(`name() = "<stdin>"`, `isStdin() = true`). -/
def stdinObject : InputDataObject := ⟨true, [], true, "<stdin>".data⟩

/-- `Arguments::addInputFile` (`argument_parser.cpp:136-155`).  The
filesystem outcome is a parameter: `openResult name = none` means
`createInputStream(name)` succeeds (a file-backed stream, `isStdin() =
false`), `some e` means it throws `FileOperationException` with message `e`,
in which case the appended object holds `createInputStream()` — a
`StandardInputStream` — and an unhealthy `HealthStatus` carrying `e`. -/
def addInputFile (openResult : List Char → Option (List Char)) (name : List Char) :
    InputDataObject :=
  match openResult name with
  | Option.none => ⟨true, [], false, name⟩
  | some e => ⟨false, e, true, "<stdin>".data⟩

/-- `Arguments::addStdin` (`argument_parser.cpp:157-166`): appends the
standard-input object only when no input object exists yet. -/
def addStdin (objs : List InputDataObject) : List InputDataObject :=
  if objs.isEmpty then [stdinObject] else objs

/-- `detail::processOption` (`argument_parser.cpp:194-221`): `-l`, `-w`,
`-c`, `-m` enable an option; anything else throws
`InvalidArgumentException`. -/
def processOption (arg : List Char) (o : Opts) : Except (List Char) Opts :=
  if arg = "-l".data then Except.ok { o with lines := true }
  else if arg = "-w".data then Except.ok { o with words := true }
  else if arg = "-c".data then Except.ok { o with bytes := true }
  else if arg = "-m".data then Except.ok { o with multibyte := true }
  else Except.error ("Invalid argument: ".data ++ arg)

/-- `argView.starts_with("-")` (`argument_parser.cpp:242`). -/
def startsWithDash (a : List Char) : Bool :=
  match a with
  | [] => false
  | c :: _ => c == '-'

/-- One loop iteration of `parseArguments` (`argument_parser.cpp:232-250`):
an argument starting with `-` goes to `processOption`, anything else to
`addInputFile`. -/
def parseStep (openResult : List Char → Option (List Char))
    (st : Opts × List InputDataObject) (arg : List Char) :
    Except (List Char) (Opts × List InputDataObject) :=
  if startsWithDash arg then (processOption arg st.1).map fun o => (o, st.2)
  else Except.ok (st.1, st.2 ++ [addInputFile openResult arg])

/-- `parseArguments` (`argument_parser.cpp:224-256`): skip `argv[0]` (the
`firstArgument` flag), fold the remaining arguments, then `addStdin` and
`normalizeFormattingOptions`. -/
def parseArguments (openResult : List Char → Option (List Char))
    (argv : List (List Char)) : Except (List Char) (Opts × List InputDataObject) :=
  (argv.drop 1).foldlM (parseStep openResult) (Opts.none, []) |>.map
    fun st => (normalizeFormattingOptions st.1, addStdin st.2)

/-- The file-path (non-option) arguments of a command line, in order. -/
def fileArgs (argv : List (List Char)) : List (List Char) :=
  (argv.drop 1).filter fun a => !startsWithDash a

/-! ## Output formatting (`output_formatter.cpp`) -/

/-- `std::to_string` on an unsigned count. -/
def toChars (n : Nat) : List Char := (Nat.repr n).data

/-- `FormatHandler::doHandle` for one handler
(`output_formatter.hpp:116-133`): when enabled, left-pad the rendered number
with `1 + (max_len_of_num + 1) - length` spaces and append. -/
def handleField (enabled : Bool) (maxLen : Nat) (v : Nat) : List Char :=
  if enabled then
    List.replicate (1 + (maxLen + 1) - (toChars v).length) ' ' ++ toChars v
  else []

/-- The whole handler chain built by `OutputFormatter::buildFormatChain`
(`output_formatter.cpp:79-109`), in order lines → words → multibyte →
bytes. -/
def doHandle (o : Opts) (maxLen : Nat) (c : Counter) : List Char :=
  handleField o.lines maxLen c.lines ++ handleField o.words maxLen c.words ++
  handleField o.multibyte maxLen c.multibyte ++ handleField o.bytes maxLen c.bytes

/-- `total_counter` (`output_formatter.cpp:116-121`): field-wise sum of all
per-input counters, healthy or not. -/
def totalCounter (counters : List Counter) : Counter :=
  counters.foldl (fun acc c => acc + c) Counter.zero

/-- One rendered line of a healthy input (`output_formatter.cpp:139-145`):
the handler chain's output, then a space and the stream name unless the
stream is stdin, then a newline. -/
def renderLine (o : Opts) (maxLen : Nat) (c : Counter) (obj : InputDataObject) :
    List Char :=
  doHandle o maxLen c ++ (if obj.stdinLike then [] else ' ' :: obj.name) ++ ['\n']

/-- The per-input loop of `OutputFormatter::formatFile`
(`output_formatter.cpp:129-146`), over the `(counter, input object)` pairs in
input order: renders healthy inputs until the first unhealthy one, whose
error message (plus newline) is appended instead before the loop `break`s;
the flag is the loop's `found_bad`. -/
def formatLoop (o : Opts) (maxLen : Nat) :
    List (Counter × InputDataObject) → List Char × Bool
  | [] => ([], false)
  | x :: rest =>
    if x.2.healthy then
      let r := formatLoop o maxLen rest
      (renderLine o maxLen x.1 x.2 ++ r.1, r.2)
    else (x.2.errMsg ++ ['\n'], true)

/-- `OutputFormatter::formatFile` (`output_formatter.cpp:111-160`).  The
source indexes `counters` and `inputDataObjects` by the same `i`; they are
passed here already zipped (the driver produces one counter per input
object).  When `found_bad` is set the total row is skipped; otherwise a
total row is appended whenever more than one input exists. -/
def formatFile (o : Opts) (xs : List (Counter × InputDataObject)) : List Char :=
  let total := totalCounter (xs.map Prod.fst)
  let maxLen := (toChars total.bytes).length
  let r := formatLoop o maxLen xs
  if r.2 then r.1
  else if 1 < xs.length then r.1 ++ doHandle o maxLen total ++ ['\n']
  else r.1

/-! ## Top level (`main.cpp`) -/

/-- `buildCounterStateMachineChain` wrapped in the driver: the
`MultibyteStateMachine` constructor throws `"Failed to create UTF-8 locale"`
when the UTF-8 locale cannot be constructed
(`counter_state_machine.hpp:253-258`), and `doCount` builds the chain before
touching any input, so a locale failure yields the error before any byte is
pulled. -/
def doCountE (localeOk : Bool) (inputs : List (Bool × List Nat)) :
    Except (List Char) (List Counter) :=
  if localeOk then Except.ok (doCount inputs)
  else Except.error "Failed to create UTF-8 locale".data

/-- `main` (`main.cpp:7-25`) after successful argument parsing: run
`doCount`, then `Arguments::formatOutput` (which prints
`formatFile … + '\n'`); any `std::exception` is caught, its message printed
(with `'\n'`), and `main` returns `0` on every path.  The result is the text
written to standard output paired with the process exit code. -/
def mainRun (localeOk : Bool) (o : Opts) (inputs : List (InputDataObject × List Nat)) :
    List Char × Nat :=
  match doCountE localeOk (inputs.map fun i => (i.1.healthy, i.2)) with
  | Except.error e => (e ++ ['\n'], 0)
  | Except.ok cs => (formatFile o (cs.zip (inputs.map Prod.fst)) ++ ['\n'], 0)

/-! ## Specification-side definitions

These two definitions come from the wording of the claims, not from the
source; they are the comparison side of the refinement claims about word
counting and split points. -/

/-- Split a byte list at every whitespace byte (whitespace bytes are
delimiters and belong to no chunk).  The non-empty chunks are exactly the
maximal runs of non-whitespace bytes. -/
def chunks : List Nat → List (List Nat)
  | [] => [[]]
  | b :: r =>
    if isspace b then [] :: chunks r
    else
      match chunks r with
      | h :: t => (b :: h) :: t
      | [] => [[b]]

/-- The number of maximal runs of non-whitespace bytes (the spec's
definition of the word count). -/
def runCount (l : List Nat) : Nat :=
  ((chunks l).filter fun c => !c.isEmpty).length

/-- Structurally valid single UTF-8 sequence: a leading byte whose
`utf8CharLength` equals the sequence length, followed by continuation
bytes. -/
def isSeq (s : List Nat) : Bool :=
  match s with
  | [b] => utf8CharLength b == 1
  | [b, c1] => utf8CharLength b == 2 && isCont c1
  | [b, c1, c2] => utf8CharLength b == 3 && isCont c1 && isCont c2
  | [b, c1, c2, c3] => utf8CharLength b == 4 && isCont c1 && isCont c2 && isCont c3
  | _ => false

/-- Recursion core of `validU`. -/
def validGo : Nat → List Nat → Bool
  | _, [] => true
  | 0, _ => false
  | fuel + 1, b :: rest =>
    match takeSeq b rest with
    | some (_, r) => validGo fuel r
    | Option.none => false

/-- Structurally valid UTF-8: a concatenation of valid sequences.  A split
of such a list into two valid halves is exactly a split "on a UTF-8
sequence boundary". -/
def validU (l : List Nat) : Bool := validGo l.length l

/-- The split between `l₁` and `l₂` does not fall inside a word: one side of
the boundary is empty or starts/ends with whitespace. -/
def splitOutsideWord (l₁ l₂ : List Nat) : Bool :=
  l₁.isEmpty || l₂.isEmpty ||
  (match l₁.getLast? with | some b => isspace b | Option.none => true) ||
  (match l₂.head? with | some b => isspace b | Option.none => true)

/-- A non-empty proper prefix of a structurally valid UTF-8 sequence (or the
empty list): a leading byte announcing more bytes than are present, followed
only by continuation bytes.  This is the shape of the decoder's pending
buffer in the middle of a sequence. -/
def incompleteSeq (p : List Nat) : Bool :=
  match p with
  | [] => true
  | [b] => decide (2 ≤ utf8CharLength b)
  | [b, c1] => decide (3 ≤ utf8CharLength b) && isCont c1
  | [b, c1, c2] => utf8CharLength b == 4 && isCont c1 && isCont c2
  | _ => false

/-! ## Characterisation of the chain fold, concern by concern -/

/-- The word count contributed by a byte list entered with in-word flag
`iw` (proof-side characterisation of `WordStateMachine`). -/
def wcount : Bool → List Nat → Nat
  | _, [] => 0
  | iw, b :: r =>
    if isspace b then wcount false r
    else if iw then wcount true r else 1 + wcount true r

/-- The in-word flag after processing a byte list. -/
def iwAfter : Bool → List Nat → Bool
  | iw, [] => iw
  | _, b :: r => iwAfter (!isspace b) r

theorem runChain_nil (s : ChainState) (c : Counter) : runChain [] s c = (s, c) := rfl

theorem runChain_cons (b : Nat) (l : List Nat) (s : ChainState) (c : Counter) :
    runChain (b :: l) s c = runChain l (chainStep b s c).1 (chainStep b s c).2 := rfl

theorem chainStep_bytes (b : Nat) (s : ChainState) (c : Counter) :
    ((chainStep b s c).2).bytes = c.bytes + 1 := by
  simp only [chainStep, mbStep, flushBuffer]
  split_ifs <;> rfl

theorem chainStep_lines (b : Nat) (s : ChainState) (c : Counter) :
    ((chainStep b s c).2).lines = if b == 10 then c.lines + 1 else c.lines := by
  simp only [chainStep, mbStep, flushBuffer]
  split_ifs <;> rfl

theorem chainStep_words (b : Nat) (s : ChainState) (c : Counter) :
    ((chainStep b s c).2).words =
      if isspace b then c.words else if s.inWord then c.words else c.words + 1 := by
  simp only [chainStep, mbStep, flushBuffer]
  split_ifs <;> rfl

theorem chainStep_inWord (b : Nat) (s : ChainState) (c : Counter) :
    ((chainStep b s c).1).inWord = !isspace b := by
  simp only [chainStep]
  split_ifs with h <;> simp [h]

theorem chainStep_mb (b : Nat) (s : ChainState) (c : Counter) :
    ((chainStep b s c).1.mbBuffer, (chainStep b s c).2.multibyte) =
      mbStep (s.mbBuffer, c.multibyte) b := by
  simp only [chainStep]
  split_ifs <;> rfl

theorem runChain_bytes (l : List Nat) (s : ChainState) (c : Counter) :
    ((runChain l s c).2).bytes = c.bytes + l.length := by
  induction l generalizing s c with
  | nil => simp [runChain_nil]
  | cons b r ih =>
    rw [runChain_cons, ih, chainStep_bytes]
    simp only [List.length_cons]
    omega

theorem runChain_lines (l : List Nat) (s : ChainState) (c : Counter) :
    ((runChain l s c).2).lines = c.lines + l.count 10 := by
  induction l generalizing s c with
  | nil => simp [runChain_nil]
  | cons b r ih =>
    rw [runChain_cons, ih, chainStep_lines, List.count_cons]
    by_cases h : b == 10 <;> (simp [h]; try omega)

theorem runChain_words (l : List Nat) (s : ChainState) (c : Counter) :
    ((runChain l s c).2).words = c.words + wcount s.inWord l ∧
      ((runChain l s c).1).inWord = iwAfter s.inWord l := by
  induction l generalizing s c with
  | nil => simp [runChain_nil, wcount, iwAfter]
  | cons b r ih =>
    rw [runChain_cons]
    refine ⟨?_, ?_⟩
    · rw [(ih _ _).1, chainStep_words, chainStep_inWord]
      by_cases hs : isspace b
      · simp [hs, wcount]
      · by_cases hw : s.inWord <;> (simp [hs, hw, wcount]; try omega)
    · rw [(ih _ _).2, chainStep_inWord]
      simp [iwAfter]

theorem runChain_mb (l : List Nat) (s : ChainState) (c : Counter) :
    ((runChain l s c).1.mbBuffer, (runChain l s c).2.multibyte) =
      mbRun l (s.mbBuffer, c.multibyte) := by
  induction l generalizing s c with
  | nil => simp [runChain_nil, mbRun]
  | cons b r ih =>
    rw [runChain_cons, ih]
    have h := chainStep_mb b s c
    have h1 : (chainStep b s c).1.mbBuffer = (mbStep (s.mbBuffer, c.multibyte) b).1 :=
      congrArg Prod.fst h
    have h2 : (chainStep b s c).2.multibyte = (mbStep (s.mbBuffer, c.multibyte) b).2 :=
      congrArg Prod.snd h
    rw [h1, h2, mbRun, mbRun, List.foldl_cons]

theorem countOne_eq (l : List Nat) :
    countOne l = ⟨l.count 10, wcount false l, (mbRun l ([], 0)).2, l.length⟩ := by
  have hb : ((runChain l chainReset Counter.zero).2).bytes = l.length := by
    simpa [Counter.zero] using runChain_bytes l chainReset Counter.zero
  have hl : ((runChain l chainReset Counter.zero).2).lines = l.count 10 := by
    simpa [Counter.zero] using runChain_lines l chainReset Counter.zero
  have hw : ((runChain l chainReset Counter.zero).2).words = wcount false l := by
    simpa [Counter.zero, chainReset] using (runChain_words l chainReset Counter.zero).1
  have hm : ((runChain l chainReset Counter.zero).2).multibyte = (mbRun l ([], 0)).2 := by
    simpa [Counter.zero, chainReset] using
      congrArg Prod.snd (runChain_mb l chainReset Counter.zero)
  show (runChain l chainReset Counter.zero).2 = _
  cases hc : (runChain l chainReset Counter.zero).2 with
  | mk a b c d =>
    rw [hc] at hb hl hw hm
    simp only [Counter.mk.injEq]
    exact ⟨hl, hw, hm, hb⟩

theorem mbBuffer_eq (l : List Nat) :
    (runChain l chainReset Counter.zero).1.mbBuffer = (mbRun l ([], 0)).1 := by
  simpa [Counter.zero, chainReset] using
    congrArg Prod.fst (runChain_mb l chainReset Counter.zero)

theorem countFinal_eq (l : List Nat) :
    countFinal l =
      ⟨l.count 10, wcount false l, mbFinalize (mbRun l ([], 0)), l.length⟩ := by
  have h1 := countOne_eq l
  have hbuf := mbBuffer_eq l
  have hmb : ((runChain l chainReset Counter.zero).2).multibyte = (mbRun l ([], 0)).2 := by
    have := congrArg Counter.multibyte h1
    simpa [countOne] using this
  show { (runChain l chainReset Counter.zero).2 with
      multibyte := mbFinalize ((runChain l chainReset Counter.zero).1.mbBuffer,
        ((runChain l chainReset Counter.zero).2).multibyte) } = _
  rw [hbuf, hmb]
  have : (runChain l chainReset Counter.zero).2 =
      ⟨l.count 10, wcount false l, (mbRun l ([], 0)).2, l.length⟩ := h1
  rw [this]

/-! ## UTF-8 structure lemmas -/

theorem utf8CharLength_le (b : Nat) : utf8CharLength b ≤ 4 := by
  unfold utf8CharLength
  split_ifs <;> omega

theorem utf8CharLength_of_isCont (b : Nat) (h : isCont b = true) :
    utf8CharLength b = 0 := by
  have hb : b &&& 0xC0 = 0x80 := by simpa [isCont] using h
  unfold utf8CharLength
  have h1 : ¬ b &&& 0x80 = 0 := by
    intro hc
    have e : (0xC0 : Nat) &&& 0x80 = 0x80 := by decide
    have : b &&& 0x80 = 0x80 := by
      calc b &&& 0x80 = b &&& (0xC0 &&& 0x80) := by rw [e]
        _ = (b &&& 0xC0) &&& 0x80 := (Nat.land_assoc b 0xC0 0x80).symm
        _ = 0x80 &&& 0x80 := by rw [hb]
        _ = 0x80 := by decide
    omega
  have h2 : ¬ b &&& 0xE0 = 0xC0 := by
    intro hc
    have e : (0xE0 : Nat) &&& 0xC0 = 0xC0 := by decide
    have : b &&& 0xC0 = 0xC0 := by
      calc b &&& 0xC0 = b &&& (0xE0 &&& 0xC0) := by rw [e]
        _ = (b &&& 0xE0) &&& 0xC0 := (Nat.land_assoc b 0xE0 0xC0).symm
        _ = 0xC0 &&& 0xC0 := by rw [hc]
        _ = 0xC0 := by decide
    omega
  have h3 : ¬ b &&& 0xF0 = 0xE0 := by
    intro hc
    have e : (0xF0 : Nat) &&& 0xC0 = 0xC0 := by decide
    have : b &&& 0xC0 = 0xC0 := by
      calc b &&& 0xC0 = b &&& (0xF0 &&& 0xC0) := by rw [e]
        _ = (b &&& 0xF0) &&& 0xC0 := (Nat.land_assoc b 0xF0 0xC0).symm
        _ = 0xE0 &&& 0xC0 := by rw [hc]
        _ = 0xC0 := by decide
    omega
  have h4 : ¬ b &&& 0xF8 = 0xF0 := by
    intro hc
    have e : (0xF8 : Nat) &&& 0xC0 = 0xC0 := by decide
    have : b &&& 0xC0 = 0xC0 := by
      calc b &&& 0xC0 = b &&& (0xF8 &&& 0xC0) := by rw [e]
        _ = (b &&& 0xF8) &&& 0xC0 := (Nat.land_assoc b 0xF8 0xC0).symm
        _ = 0xF0 &&& 0xC0 := by rw [hc]
        _ = 0xC0 := by decide
    omega
  simp [h1, h2, h3, h4]

theorem fullCharsGo_nil (f : Nat) : fullCharsGo f [] = 0 := by cases f <;> rfl

theorem fullCharsGo_succ (f b : Nat) (rest : List Nat) :
    fullCharsGo (f + 1) (b :: rest) =
      match takeSeq b rest with
      | some (k, r) => k + fullCharsGo f r
      | Option.none => 0 := rfl

theorem wideGo_nil (f : Nat) : wideGo f [] = 0 := by cases f <;> rfl

theorem wideGo_succ (f b : Nat) (rest : List Nat) :
    wideGo (f + 1) (b :: rest) =
      match takeSeq b rest with
      | some (_, r) => (if boostAccepts b (rest.headD 0) then 1 else 0) + wideGo f r
      | Option.none => wideGo f rest := rfl

theorem validGo_nil (f : Nat) : validGo f [] = true := by cases f <;> rfl

@[simp] theorem wideSize_nil : wideSize [] = 0 := rfl

@[simp] theorem validU_nil : validU [] = true := rfl

@[simp] theorem fullCharsByteCount_nil : fullCharsByteCount [] = 0 := rfl

theorem validGo_succ (f b : Nat) (rest : List Nat) :
    validGo (f + 1) (b :: rest) =
      match takeSeq b rest with
      | some (_, r) => validGo f r
      | Option.none => false := rfl

theorem takeSeq_len (b : Nat) (rest : List Nat) (k : Nat) (r : List Nat)
    (h : takeSeq b rest = some (k, r)) :
    rest.length + 1 = k + r.length ∧ 1 ≤ k := by
  unfold takeSeq at h
  split_ifs at h with h1 h2 h3 h4
  · obtain ⟨hk, hr⟩ : 1 = k ∧ rest = r := by simpa using h
    subst hk; subst hr
    exact ⟨by omega, by omega⟩
  · rcases rest with _ | ⟨c1, r1⟩
    · simp at h
    · by_cases hc : isCont c1 = true
      · obtain ⟨hk, hr⟩ : 2 = k ∧ r1 = r := by simpa [hc] using h
        subst hk; subst hr
        exact ⟨by simp only [List.length_cons]; omega, by omega⟩
      · simp [hc] at h
  · rcases rest with _ | ⟨c1, _ | ⟨c2, r2⟩⟩
    · simp at h
    · simp at h
    · by_cases hc : (isCont c1 && isCont c2) = true
      · obtain ⟨hk, hr⟩ : 3 = k ∧ r2 = r := by simpa [hc] using h
        subst hk; subst hr
        exact ⟨by simp only [List.length_cons]; omega, by omega⟩
      · simp [hc] at h
  · rcases rest with _ | ⟨c1, _ | ⟨c2, _ | ⟨c3, r3⟩⟩⟩
    · simp at h
    · simp at h
    · simp at h
    · by_cases hc : (isCont c1 && isCont c2 && isCont c3) = true
      · obtain ⟨hk, hr⟩ : 4 = k ∧ r3 = r := by simpa [hc] using h
        subst hk; subst hr
        exact ⟨by simp only [List.length_cons]; omega, by omega⟩
      · simp [hc] at h

theorem fullCharsGo_fuel : ∀ f₁ f₂ l, l.length ≤ f₁ → l.length ≤ f₂ →
    fullCharsGo f₁ l = fullCharsGo f₂ l := by
  intro f₁
  induction f₁ with
  | zero =>
    intro f₂ l h1 _
    have : l = [] := by cases l with | nil => rfl | cons a r => simp at h1
    subst this
    rw [fullCharsGo_nil, fullCharsGo_nil]
  | succ f ih =>
    intro f₂ l h1 h2
    cases l with
    | nil => rw [fullCharsGo_nil, fullCharsGo_nil]
    | cons b rest =>
      cases f₂ with
      | zero => simp at h2
      | succ g =>
        rw [fullCharsGo_succ, fullCharsGo_succ]
        cases hts : takeSeq b rest with
        | none => rfl
        | some kr =>
          obtain ⟨k, r⟩ := kr
          have hlen := takeSeq_len b rest k r hts
          simp only [List.length_cons] at h1 h2
          dsimp only
          rw [ih g r (by omega) (by omega)]

theorem wideGo_fuel : ∀ f₁ f₂ l, l.length ≤ f₁ → l.length ≤ f₂ →
    wideGo f₁ l = wideGo f₂ l := by
  intro f₁
  induction f₁ with
  | zero =>
    intro f₂ l h1 _
    have : l = [] := by cases l with | nil => rfl | cons a r => simp at h1
    subst this
    rw [wideGo_nil, wideGo_nil]
  | succ f ih =>
    intro f₂ l h1 h2
    cases l with
    | nil => rw [wideGo_nil, wideGo_nil]
    | cons b rest =>
      cases f₂ with
      | zero => simp at h2
      | succ g =>
        rw [wideGo_succ, wideGo_succ]
        simp only [List.length_cons] at h1 h2
        cases hts : takeSeq b rest with
        | none =>
          dsimp only
          rw [ih g rest (by omega) (by omega)]
        | some kr =>
          obtain ⟨k, r⟩ := kr
          have hlen := takeSeq_len b rest k r hts
          dsimp only
          rw [ih g r (by omega) (by omega)]

theorem validGo_fuel : ∀ f₁ f₂ l, l.length ≤ f₁ → l.length ≤ f₂ →
    validGo f₁ l = validGo f₂ l := by
  intro f₁
  induction f₁ with
  | zero =>
    intro f₂ l h1 _
    have : l = [] := by cases l with | nil => rfl | cons a r => simp at h1
    subst this
    rw [validGo_nil, validGo_nil]
  | succ f ih =>
    intro f₂ l h1 h2
    cases l with
    | nil => rw [validGo_nil, validGo_nil]
    | cons b rest =>
      cases f₂ with
      | zero => simp at h2
      | succ g =>
        rw [validGo_succ, validGo_succ]
        cases hts : takeSeq b rest with
        | none => rfl
        | some kr =>
          obtain ⟨k, r⟩ := kr
          have hlen := takeSeq_len b rest k r hts
          simp only [List.length_cons] at h1 h2
          dsimp only
          rw [ih g r (by omega) (by omega)]

theorem isSeq_cases (s : List Nat) (h : isSeq s = true) :
    (∃ b, s = [b] ∧ utf8CharLength b = 1) ∨
    (∃ b c1, s = [b, c1] ∧ utf8CharLength b = 2 ∧ isCont c1 = true) ∨
    (∃ b c1 c2, s = [b, c1, c2] ∧ utf8CharLength b = 3 ∧
      isCont c1 = true ∧ isCont c2 = true) ∨
    (∃ b c1 c2 c3, s = [b, c1, c2, c3] ∧ utf8CharLength b = 4 ∧
      isCont c1 = true ∧ isCont c2 = true ∧ isCont c3 = true) := by
  rcases s with _ | ⟨b, _ | ⟨c1, _ | ⟨c2, _ | ⟨c3, _ | ⟨c4, s5⟩⟩⟩⟩⟩ <;>
    simp [isSeq] at h ⊢ <;> tauto

theorem isSeq_takeSeq (b : Nat) (tail : List Nat) (h : isSeq (b :: tail) = true)
    (r : List Nat) : takeSeq b (tail ++ r) = some (tail.length + 1, r) := by
  rcases tail with _ | ⟨c1, _ | ⟨c2, _ | ⟨c3, _ | ⟨c4, t5⟩⟩⟩⟩
  · have hn : utf8CharLength b = 1 := by simpa [isSeq] using h
    simp [takeSeq, hn]
  · have hn : utf8CharLength b = 2 := by simp [isSeq] at h; tauto
    have hc1 : isCont c1 = true := by simp [isSeq] at h; tauto
    simp [takeSeq, hn, hc1]
  · have hn : utf8CharLength b = 3 := by simp [isSeq] at h; tauto
    have hc1 : isCont c1 = true := by simp [isSeq] at h; tauto
    have hc2 : isCont c2 = true := by simp [isSeq] at h; tauto
    simp [takeSeq, hn, hc1, hc2]
  · have hn : utf8CharLength b = 4 := by simp [isSeq] at h; tauto
    have hc1 : isCont c1 = true := by simp [isSeq] at h; tauto
    have hc2 : isCont c2 = true := by simp [isSeq] at h; tauto
    have hc3 : isCont c3 = true := by simp [isSeq] at h; tauto
    simp [takeSeq, hn, hc1, hc2, hc3]
  · simp [isSeq] at h

theorem takeSeq_isSeq (b : Nat) (rest : List Nat) (k : Nat) (r : List Nat)
    (h : takeSeq b rest = some (k, r)) :
    ∃ tail, rest = tail ++ r ∧ isSeq (b :: tail) = true ∧ k = tail.length + 1 := by
  unfold takeSeq at h
  split_ifs at h with h1 h2 h3 h4
  · obtain ⟨hk, hr⟩ : 1 = k ∧ rest = r := by simpa using h
    exact ⟨[], by simp [hr], by simp [isSeq, h1], by simp [← hk]⟩
  · cases rest with
    | nil => simp at h
    | cons c1 r1 =>
      by_cases hc : isCont c1 = true
      · obtain ⟨hk, hr⟩ : 2 = k ∧ r1 = r := by simpa [hc] using h
        exact ⟨[c1], by simp [hr], by simp [isSeq, h2, hc], by simp [← hk]⟩
      · simp [hc] at h
  · rcases rest with _ | ⟨c1, _ | ⟨c2, r2⟩⟩
    · simp at h
    · simp at h
    · by_cases hc : (isCont c1 && isCont c2) = true
      · obtain ⟨hk, hr⟩ : 3 = k ∧ r2 = r := by simpa [hc] using h
        simp only [Bool.and_eq_true] at hc
        exact ⟨[c1, c2], by simp [hr], by simp [isSeq, h3, hc.1, hc.2], by simp [← hk]⟩
      · simp [hc] at h
  · rcases rest with _ | ⟨c1, _ | ⟨c2, _ | ⟨c3, r3⟩⟩⟩
    · simp at h
    · simp at h
    · simp at h
    · by_cases hc : (isCont c1 && isCont c2 && isCont c3) = true
      · obtain ⟨hk, hr⟩ : 4 = k ∧ r3 = r := by simpa [hc] using h
        simp only [Bool.and_eq_true] at hc
        exact ⟨[c1, c2, c3], by simp [hr],
          by simp [isSeq, h4, hc.1.1, hc.1.2, hc.2], by simp [← hk]⟩
      · simp [hc] at h

theorem incompleteSeq_cases (p : List Nat) (h : incompleteSeq p = true) :
    p = [] ∨ ∃ b tail, p = b :: tail ∧ takeSeq b tail = Option.none ∧
      ∀ x ∈ tail, isCont x = true := by
  rcases p with _ | ⟨b, _ | ⟨c1, _ | ⟨c2, _ | ⟨c3, p4⟩⟩⟩⟩
  · exact Or.inl rfl
  · refine Or.inr ⟨b, [], rfl, ?_, by simp⟩
    have hn : 2 ≤ utf8CharLength b := by simpa [incompleteSeq] using h
    unfold takeSeq
    split_ifs with h1 h2 h3 h4 <;> first | rfl | omega
  · obtain ⟨hn, hc⟩ : 3 ≤ utf8CharLength b ∧ isCont c1 = true := by
      simpa [incompleteSeq] using h
    refine Or.inr ⟨b, [c1], rfl, ?_, by simpa using hc⟩
    unfold takeSeq
    split_ifs with h1 h2 h3 h4 <;> first | rfl | omega
  · obtain ⟨⟨hn, hc1⟩, hc2⟩ :
        (utf8CharLength b = 4 ∧ isCont c1 = true) ∧ isCont c2 = true := by
      simpa [incompleteSeq] using h
    refine Or.inr ⟨b, [c1, c2], rfl, ?_, ?_⟩
    · unfold takeSeq
      split_ifs with h1 h2 h3 <;> first | rfl | omega
    · intro x hx
      simp only [List.mem_cons, List.not_mem_nil, or_false] at hx
      rcases hx with rfl | rfl
      · exact hc1
      · exact hc2
  · simp [incompleteSeq] at h

theorem validU_seq_cons (s : List Nat) (hs : isSeq s = true) (r : List Nat) :
    validU (s ++ r) = validU r := by
  obtain ⟨b, tail, rfl⟩ : ∃ b tail, s = b :: tail := by
    cases s with
    | nil => simp [isSeq] at hs
    | cons b tail => exact ⟨b, tail, rfl⟩
  show validGo ((b :: tail ++ r).length) (b :: (tail ++ r)) = validU r
  have hlen : (b :: tail ++ r).length = (tail.length + r.length) + 1 := by simp
  rw [hlen, validGo_succ, isSeq_takeSeq b tail hs r]
  dsimp only
  exact validGo_fuel _ _ r (by omega) le_rfl

theorem fullChars_seq_cons (s : List Nat) (hs : isSeq s = true) (r : List Nat) :
    fullCharsByteCount (s ++ r) = s.length + fullCharsByteCount r := by
  obtain ⟨b, tail, rfl⟩ : ∃ b tail, s = b :: tail := by
    cases s with
    | nil => simp [isSeq] at hs
    | cons b tail => exact ⟨b, tail, rfl⟩
  show fullCharsGo ((b :: tail ++ r).length) (b :: (tail ++ r)) = _
  have hlen : (b :: tail ++ r).length = (tail.length + r.length) + 1 := by simp
  rw [hlen, fullCharsGo_succ, isSeq_takeSeq b tail hs r]
  dsimp only
  rw [fullCharsGo_fuel _ r.length r (by omega) le_rfl]
  simp only [fullCharsByteCount, List.length_cons]

theorem boostAccepts_ascii (b x y : Nat) (h : utf8CharLength b = 1) :
    boostAccepts b x = boostAccepts b y := by
  have h80 : b &&& 0x80 = 0x00 := by
    by_cases hc : b &&& 0x80 = 0x00
    · exact hc
    · unfold utf8CharLength at h
      rw [if_neg hc] at h
      split_ifs at h <;> omega
  unfold boostAccepts
  rw [if_pos h80, if_pos h80]

theorem wideSize_seq_cons (s : List Nat) (hs : isSeq s = true) (r : List Nat) :
    wideSize (s ++ r) = (if seqAccepted s then 1 else 0) + wideSize r := by
  obtain ⟨b, tail, rfl⟩ : ∃ b tail, s = b :: tail := by
    cases s with
    | nil => simp [isSeq] at hs
    | cons b tail => exact ⟨b, tail, rfl⟩
  show wideGo ((b :: tail ++ r).length) (b :: (tail ++ r)) = _
  have hlen : (b :: tail ++ r).length = (tail.length + r.length) + 1 := by simp
  rw [hlen, wideGo_succ, isSeq_takeSeq b tail hs r]
  dsimp only
  rw [wideGo_fuel _ r.length r (by omega) le_rfl]
  show (if boostAccepts b ((tail ++ r).headD 0) then 1 else 0) + wideSize r =
    (if seqAccepted (b :: tail) then 1 else 0) + wideSize r
  cases tail with
  | nil =>
    have h1 : utf8CharLength b = 1 := by simpa [isSeq] using hs
    have hba : boostAccepts b (r.headD 0) = boostAccepts b 0 :=
      boostAccepts_ascii b (r.headD 0) 0 h1
    simp only [List.nil_append, seqAccepted, List.headD_cons, List.tail_cons,
      List.headD_nil, hba]
  | cons c1 t' =>
    simp only [List.cons_append, List.headD_cons, seqAccepted, List.tail_cons]

theorem wideGo_conts (f : Nat) (l : List Nat) (h : ∀ b ∈ l, isCont b = true) :
    wideGo f l = 0 := by
  induction f generalizing l with
  | zero => cases l <;> rfl
  | succ f ih =>
    cases l with
    | nil => rfl
    | cons b rest =>
      have hb : utf8CharLength b = 0 := utf8CharLength_of_isCont b (h b (by simp))
      have hts : takeSeq b rest = Option.none := by
        unfold takeSeq
        split_ifs <;> first | rfl | omega
      rw [wideGo_succ, hts]
      exact ih rest fun x hx => h x (by simp [hx])

theorem fullChars_incomplete (p : List Nat) (h : incompleteSeq p = true) :
    fullCharsByteCount p = 0 := by
  rcases incompleteSeq_cases p h with rfl | ⟨b, tail, rfl, hts, _⟩
  · rfl
  · show fullCharsGo ((b :: tail).length) (b :: tail) = 0
    rw [List.length_cons, fullCharsGo_succ, hts]

theorem wideSize_incomplete (p : List Nat) (h : incompleteSeq p = true) :
    wideSize p = 0 := by
  rcases incompleteSeq_cases p h with rfl | ⟨b, tail, rfl, hts, hconts⟩
  · rfl
  · show wideGo ((b :: tail).length) (b :: tail) = 0
    rw [List.length_cons, wideGo_succ, hts]
    exact wideGo_conts _ _ hconts

theorem validU_destruct (l : List Nat) (h : validU l = true) :
    l = [] ∨ ∃ s r, isSeq s = true ∧ validU r = true ∧ l = s ++ r ∧ s ≠ [] := by
  cases l with
  | nil => exact Or.inl rfl
  | cons b rest =>
    refine Or.inr ?_
    have h' : validGo (rest.length + 1) (b :: rest) = true := h
    rw [validGo_succ] at h'
    cases hts : takeSeq b rest with
    | none => rw [hts] at h'; simp at h'
    | some kr =>
      obtain ⟨k, r⟩ := kr
      rw [hts] at h'
      dsimp only at h'
      obtain ⟨tail, he, hseq, rfl⟩ := takeSeq_isSeq b rest k r hts
      subst he
      have hr : validU r = true := by
        show validGo r.length r = true
        rw [validGo_fuel r.length (tail ++ r).length r le_rfl (by simp)]
        exact h'
      exact ⟨b :: tail, r, hseq, hr, by simp, by simp⟩

theorem validU_ind (P : List Nat → Prop) (h0 : P [])
    (hstep : ∀ s r, isSeq s = true → validU r = true → P r → P (s ++ r)) :
    ∀ l, validU l = true → P l := by
  have key : ∀ n l, l.length ≤ n → validU l = true → P l := by
    intro n
    induction n with
    | zero =>
      intro l hl _
      have : l = [] := by
        cases l with
        | nil => rfl
        | cons a r => simp at hl
      exact this ▸ h0
    | succ n ih =>
      intro l hl hv
      rcases validU_destruct l hv with rfl | ⟨s, r, hs, hr, rfl, hne⟩
      · exact h0
      · have hlen : r.length ≤ n := by
          have : 1 ≤ s.length := by
            cases s with
            | nil => exact absurd rfl hne
            | cons a t => simp
          simp only [List.length_append] at hl
          omega
        exact hstep s r hs hr (ih r hlen hr)
  exact fun l => key l.length l le_rfl

theorem isSeq_validU (s : List Nat) (hs : isSeq s = true) : validU s = true := by
  have := validU_seq_cons s hs []
  simpa using this

theorem validU_append (a b : List Nat) (ha : validU a = true) (hb : validU b = true) :
    validU (a ++ b) = true := by
  refine validU_ind (fun x => validU (x ++ b) = true) (by simpa using hb)
    (fun s r hs _ ih => ?_) a ha
  show validU (s ++ r ++ b) = true
  rw [List.append_assoc, validU_seq_cons s hs]
  exact ih

theorem wideSize_append_of_valid (a : List Nat) (ha : validU a = true) (b : List Nat) :
    wideSize (a ++ b) = wideSize a + wideSize b := by
  refine validU_ind (fun x => wideSize (x ++ b) = wideSize x + wideSize b) (by simp)
    (fun s r hs _ ih => ?_) a ha
  show wideSize (s ++ r ++ b) = wideSize (s ++ r) + wideSize b
  rw [List.append_assoc, wideSize_seq_cons s hs, ih, wideSize_seq_cons s hs]
  omega

/-! ## The multibyte engine on structurally valid input -/

theorem fullChars_valid_incomplete (ws : List Nat) (hws : validU ws = true)
    (p : List Nat) (hp : incompleteSeq p = true) :
    fullCharsByteCount (ws ++ p) = ws.length := by
  refine validU_ind (fun x => fullCharsByteCount (x ++ p) = x.length) ?_ ?_ ws hws
  · simpa using fullChars_incomplete p hp
  · intro s r hs _ ih
    show fullCharsByteCount (s ++ r ++ p) = (s ++ r).length
    rw [List.append_assoc, fullChars_seq_cons s hs, ih]
    simp

theorem flushBuffer_good (ws : List Nat) (hws : validU ws = true)
    (p : List Nat) (hp : incompleteSeq p = true) (m : Nat) :
    flushBuffer (ws ++ p, m) = (p, m + wideSize ws) := by
  rcases ws with _ | ⟨a, ws'⟩
  · rcases p with _ | ⟨b, tail⟩
    · simp [flushBuffer]
    · have hk : fullCharsByteCount (b :: tail) = 0 := fullChars_incomplete _ hp
      simp [flushBuffer, hk]
  · have hk : fullCharsByteCount ((a :: ws') ++ p) = (a :: ws').length :=
      fullChars_valid_incomplete _ hws p hp
    unfold flushBuffer
    dsimp only
    split_ifs with h1 h2
    · simp at h1
    · rw [hk] at h2
      simp at h2
    · show ((a :: ws' ++ p).drop (fullCharsByteCount (a :: ws' ++ p)),
        m + wideSize ((a :: ws' ++ p).take (fullCharsByteCount (a :: ws' ++ p)))) = _
      rw [show (a :: ws' ++ p) = (a :: ws') ++ p from rfl, hk,
        List.drop_left, List.take_left]

theorem incomplete_not_isSeq (p : List Nat) (hp : incompleteSeq p = true) :
    isSeq p = false := by
  rcases p with _ | ⟨b, _ | ⟨c1, _ | ⟨c2, p3⟩⟩⟩
  · rfl
  · have hn : 2 ≤ utf8CharLength b := by simpa [incompleteSeq] using hp
    simp [isSeq]
    omega
  · have hn : 3 ≤ utf8CharLength b := by
      have := hp
      simp [incompleteSeq] at this
      exact this.1
    simp [isSeq]
    intro h
    omega
  · rcases p3 with _ | ⟨c3, p4⟩
    · have hn : utf8CharLength b = 4 := by
        have := hp
        simp [incompleteSeq] at this
        exact this.1.1
      simp [isSeq, hn]
    · simp [incompleteSeq] at hp

theorem incompleteSeq_extend (p : List Nat) (b c : Nat) (rest : List Nat)
    (hp : incompleteSeq p = true) (hs : isSeq (p ++ b :: c :: rest) = true) :
    incompleteSeq (p ++ [b]) = true := by
  rcases p with _ | ⟨b0, _ | ⟨c1, _ | ⟨c2, p3⟩⟩⟩
  · -- p = []: show 2 ≤ utf8CharLength b
    rcases rest with _ | ⟨d, _ | ⟨e, rest3⟩⟩
    · have : utf8CharLength b = 2 ∧ isCont c = true := by simpa [isSeq] using hs
      simp [incompleteSeq]
      omega
    · have : utf8CharLength b = 3 := by simp [isSeq] at hs; tauto
      simp [incompleteSeq]
      omega
    · rcases rest3 with _ | ⟨f, rest4⟩
      · have : utf8CharLength b = 4 := by simp [isSeq] at hs; tauto
        simp [incompleteSeq]
        omega
      · simp [isSeq] at hs
  · -- p = [b0]
    rcases rest with _ | ⟨d, rest2⟩
    · have h3 : utf8CharLength b0 = 3 := by simp [isSeq] at hs; tauto
      have hcb : isCont b = true := by simp [isSeq] at hs; tauto
      simp [incompleteSeq, hcb]
      omega
    · rcases rest2 with _ | ⟨e, rest3⟩
      · have h4 : utf8CharLength b0 = 4 := by simp [isSeq] at hs; tauto
        have hcb : isCont b = true := by simp [isSeq] at hs; tauto
        simp [incompleteSeq, hcb]
        omega
      · simp [isSeq] at hs
  · -- p = [b0, c1]
    rcases rest with _ | ⟨d, rest2⟩
    · have h4 : utf8CharLength b0 = 4 := by simp [isSeq] at hs; tauto
      have hc1 : isCont c1 = true := by simp [isSeq] at hs; tauto
      have hcb : isCont b = true := by simp [isSeq] at hs; tauto
      simp [incompleteSeq, h4, hc1, hcb]
    · simp [isSeq] at hs
  · rcases p3 with _ | ⟨c3, p4⟩
    · simp [isSeq] at hs
    · simp [incompleteSeq] at hp

theorem mbRun_nil (st : List Nat × Nat) : mbRun [] st = st := rfl

theorem mbRun_cons (b : Nat) (l : List Nat) (st : List Nat × Nat) :
    mbRun (b :: l) st = mbRun l (mbStep st b) := rfl

theorem mbStep_mid (ws p : List Nat) (b : Nat) (m : Nat) (hws : validU ws = true)
    (hp' : incompleteSeq (p ++ [b]) = true) :
    ∃ ws' m', mbStep (ws ++ p, m) b = (ws' ++ (p ++ [b]), m') ∧ validU ws' = true ∧
      m' + wideSize ws' = m + wideSize ws := by
  unfold mbStep
  dsimp only
  split_ifs with h
  · have := flushBuffer_good ws hws (p ++ [b]) hp' m
    refine ⟨[], m + wideSize ws, ?_, by rfl, by simp⟩
    show flushBuffer ((ws ++ p) ++ [b], m) = ([] ++ (p ++ [b]), m + wideSize ws)
    rw [List.append_assoc]
    simpa using this
  · exact ⟨ws, m, by rw [List.append_assoc], hws, rfl⟩

theorem mbStep_complete (ws p : List Nat) (b : Nat) (m : Nat) (hws : validU ws = true)
    (hseq : isSeq (p ++ [b]) = true) :
    ∃ ws' m', mbStep (ws ++ p, m) b = (ws', m') ∧ validU ws' = true ∧
      m' + wideSize ws' =
        m + wideSize ws + (if seqAccepted (p ++ [b]) then 1 else 0) := by
  have hv2 : validU (ws ++ (p ++ [b])) = true :=
    validU_append ws (p ++ [b]) hws (isSeq_validU _ hseq)
  have hw2 : wideSize (ws ++ (p ++ [b])) =
      wideSize ws + (if seqAccepted (p ++ [b]) then 1 else 0) := by
    rw [wideSize_append_of_valid ws hws]
    have := wideSize_seq_cons (p ++ [b]) hseq []
    simp only [List.append_nil, wideSize_nil, Nat.add_zero] at this
    omega
  obtain ⟨w, hwdef⟩ : ∃ w, (if seqAccepted (p ++ [b]) then 1 else 0) = w := ⟨_, rfl⟩
  rw [hwdef] at hw2 ⊢
  unfold mbStep
  dsimp only
  split_ifs with h
  · have := flushBuffer_good (ws ++ (p ++ [b])) hv2 [] (by rfl) m
    refine ⟨[], m + wideSize ws + w, ?_, by rfl, by simp⟩
    show flushBuffer ((ws ++ p) ++ [b], m) = ([], m + wideSize ws + w)
    rw [List.append_assoc]
    simp at this
    rw [this, hw2]
    simp [Nat.add_assoc]
  · refine ⟨ws ++ (p ++ [b]), m, ?_, hv2, by omega⟩
    rw [List.append_assoc]

theorem mbRun_seq : ∀ (rest p ws : List Nat) (m : Nat),
    incompleteSeq p = true → isSeq (p ++ rest) = true → validU ws = true →
    ∃ ws' m', mbRun rest (ws ++ p, m) = (ws', m') ∧ validU ws' = true ∧
      m' + wideSize ws' =
        m + wideSize ws + (if seqAccepted (p ++ rest) then 1 else 0) := by
  intro rest
  induction rest with
  | nil =>
    intro p ws m hp hseq _
    have : isSeq p = true := by simpa using hseq
    rw [incomplete_not_isSeq p hp] at this
    exact absurd this (by simp)
  | cons b rest' ih =>
    intro p ws m hp hseq hws
    rcases rest' with _ | ⟨c, rest''⟩
    · obtain ⟨ws', m', he, hv, hm⟩ := mbStep_complete ws p b m hws (by simpa using hseq)
      exact ⟨ws', m', he, hv, hm⟩
    · have hp' : incompleteSeq (p ++ [b]) = true :=
        incompleteSeq_extend p b c rest'' hp hseq
      obtain ⟨ws₁, m₁, he, hv₁, hm₁⟩ := mbStep_mid ws p b m hws hp'
      have hseq' : isSeq ((p ++ [b]) ++ c :: rest'') = true := by
        rw [List.append_assoc]
        simpa using hseq
      obtain ⟨ws', m', he', hv', hm'⟩ := ih (p ++ [b]) ws₁ m₁ hp' hseq' hv₁
      rw [show (p ++ [b]) ++ c :: rest'' = p ++ b :: c :: rest'' by simp] at hm'
      refine ⟨ws', m', ?_, hv', by omega⟩
      rw [mbRun_cons, he]
      exact he'

theorem mbRun_valid (l : List Nat) (hl : validU l = true) :
    ∀ ws m, validU ws = true →
    ∃ ws' m', mbRun l (ws, m) = (ws', m') ∧ validU ws' = true ∧
      m' + wideSize ws' = m + wideSize ws + wideSize l := by
  refine validU_ind (fun l => ∀ ws m, validU ws = true →
    ∃ ws' m', mbRun l (ws, m) = (ws', m') ∧ validU ws' = true ∧
      m' + wideSize ws' = m + wideSize ws + wideSize l) ?_ ?_ l hl
  · intro ws m hws
    exact ⟨ws, m, rfl, hws, by simp⟩
  · intro s r hs _ ih ws m hws
    obtain ⟨ws₁, m₁, he₁, hv₁, hm₁⟩ :=
      mbRun_seq s [] ws m (by rfl) (by simpa using hs) hws
    simp only [List.nil_append] at hm₁
    obtain ⟨ws', m', he₂, hv₂, hm₂⟩ := ih ws₁ m₁ hv₁
    refine ⟨ws', m', ?_, hv₂, ?_⟩
    · show mbRun (s ++ r) (ws, m) = (ws', m')
      have he₁' : List.foldl mbStep (ws, m) s = (ws₁, m₁) := by
        simpa [mbRun] using he₁
      show (s ++ r).foldl mbStep (ws, m) = (ws', m')
      rw [List.foldl_append, he₁']
      exact he₂
    · rw [wideSize_seq_cons s hs r]
      omega

theorem mbFinalize_valid (l : List Nat) (hl : validU l = true) :
    mbFinalize (mbRun l ([], 0)) = wideSize l := by
  obtain ⟨ws', m', he, hv, hm⟩ := mbRun_valid l hl [] 0 (by rfl)
  rw [he]
  unfold mbFinalize
  have hfl : flushBuffer (ws', m') = ([], m' + wideSize ws') := by
    have := flushBuffer_good ws' hv [] (by rfl) m'
    simpa using this
  rw [hfl]
  simp at hm ⊢
  omega

/-! ## Word counting equals maximal-run counting -/

theorem chunks_ne_nil (l : List Nat) : chunks l ≠ [] := by
  cases l with
  | nil => simp [chunks]
  | cons b r =>
    simp only [chunks]
    split_ifs
    · simp
    · cases h : chunks r <;> simp

/-- The number of non-whitespace runs counted from the in-word state is the
number of non-empty chunks, except that when the flag is set the leading
chunk's run has already been counted. -/
theorem wcount_chunks (l : List Nat) :
    wcount false l = runCount l ∧
      wcount true l +
        (if ((chunks l).headD []).isEmpty then 0 else 1) = runCount l := by
  induction l with
  | nil => simp [wcount, runCount, chunks]
  | cons b r ih =>
    by_cases hs : isspace b
    · have hch : chunks (b :: r) = [] :: chunks r := by simp [chunks, hs]
      have hrc : runCount (b :: r) = runCount r := by
        simp [runCount, hch]
      refine ⟨?_, ?_⟩
      · simpa [wcount, hs, hrc] using ih.1
      · simp only [wcount, hs, if_pos, hch, List.headD_cons, List.isEmpty_nil]
        simpa [hrc] using ih.1
    · obtain ⟨h, t, hht⟩ : ∃ h t, chunks r = h :: t := by
        cases hc : chunks r with
        | nil => exact absurd hc (chunks_ne_nil r)
        | cons h t => exact ⟨h, t, rfl⟩
      have hch : chunks (b :: r) = (b :: h) :: t := by
        simp [chunks, hs, hht]
      have hrc : runCount (b :: r) = 1 + (t.filter fun c => !c.isEmpty).length := by
        simp [runCount, hch, Nat.add_comm]
      have hrr : runCount r =
          (if h.isEmpty then 0 else 1) + (t.filter fun c => !c.isEmpty).length := by
        by_cases hh : h.isEmpty
        · have : h = [] := List.isEmpty_iff.mp hh
          simp [runCount, hht, this]
        · have : h ≠ [] := fun e => hh.elim (by simp [e])
          simp [runCount, hht, hh, Nat.add_comm]
      have iht := ih.2
      rw [hht] at iht
      simp only [List.headD_cons] at iht
      refine ⟨?_, ?_⟩
      · have : wcount false (b :: r) = 1 + wcount true r := by simp [wcount, hs]
        rw [this, hrc]
        omega
      · have : wcount true (b :: r) = wcount true r := by simp [wcount, hs]
        rw [this, hch, hrc]
        rw [hrr] at iht
        by_cases hh : h.isEmpty = true
        · simp [hh] at iht ⊢
          omega
        · simp [hh] at iht ⊢
          omega

/-! ## Word-count additivity across splits outside a word -/

theorem wcount_append (a : List Nat) : ∀ (b : List Nat) (iw : Bool),
    wcount iw (a ++ b) = wcount iw a + wcount (iwAfter iw a) b := by
  induction a with
  | nil => intro b iw; simp [wcount, iwAfter]
  | cons x r ih =>
    intro b iw
    by_cases hs : isspace x
    · simp [wcount, iwAfter, hs, ih]
    · by_cases hiw : iw <;> (simp [wcount, iwAfter, hs, hiw, ih]; try omega)

theorem iwAfter_last_space : ∀ (l : List Nat) (x : Nat), l.getLast? = some x →
    isspace x = true → ∀ iw, iwAfter iw l = false := by
  intro l
  induction l with
  | nil => intro x hx; simp at hx
  | cons a r ih =>
    intro x hx hs iw
    cases r with
    | nil =>
      simp at hx
      subst hx
      simp [iwAfter, hs]
    | cons b r' =>
      rw [List.getLast?_cons_cons] at hx
      exact ih x hx hs (!isspace a)

theorem wcount_split (l₁ l₂ : List Nat) (h : splitOutsideWord l₁ l₂ = true) :
    wcount false (l₁ ++ l₂) = wcount false l₁ + wcount false l₂ := by
  unfold splitOutsideWord at h
  simp only [Bool.or_eq_true] at h
  rcases h with ((h | h) | h) | h
  · have : l₁ = [] := List.isEmpty_iff.mp h
    subst this
    simp [wcount]
  · have : l₂ = [] := List.isEmpty_iff.mp h
    subst this
    simp [wcount]
  · cases hg : l₁.getLast? with
    | none =>
      have : l₁ = [] := by
        cases l₁ with
        | nil => rfl
        | cons a r => simp [List.getLast?_eq_getLast] at hg
      subst this
      simp [wcount]
    | some x =>
      rw [hg] at h
      have hx : isspace x = true := by simpa using h
      rw [wcount_append, iwAfter_last_space l₁ x hg hx false]
  · cases hh : l₂.head? with
    | none =>
      have : l₂ = [] := by
        cases l₂ with
        | nil => rfl
        | cons a r => simp at hh
      subst this
      simp [wcount]
    | some x =>
      rw [hh] at h
      have hx : isspace x = true := by simpa using h
      obtain ⟨r, rfl⟩ : ∃ r, l₂ = x :: r := by
        cases l₂ with
        | nil => simp at hh
        | cons a r => simp at hh; exact ⟨r, by rw [hh]⟩
      rw [wcount_append]
      have : ∀ iw, wcount iw (x :: r) = wcount false (x :: r) := by
        intro iw
        simp [wcount, hx]
      rw [this]

/-- On structurally valid input the engine followed by `finalize` counts
exactly the code points boost's decoder accepts (`wideSize`, which weighs
each boost-rejected sequence — overlong, surrogate, bad lead, out of range —
as zero), independent of where the 4096-byte flushes fall. -/
theorem countFinal_valid (l : List Nat) (hl : validU l = true) :
    countFinal l = ⟨l.count 10, wcount false l, wideSize l, l.length⟩ := by
  rw [countFinal_eq, mbFinalize_valid l hl]

/-! ## The driver is one fresh engine run per input -/

theorem mappedReadFrom_eq (content : List Nat) : ∀ pos,
    mappedReadFrom content pos = content.drop pos := by
  have key : ∀ k pos, content.length - pos ≤ k →
      mappedReadFrom content pos = content.drop pos := by
    intro k
    induction k with
    | zero =>
      intro pos h
      rw [mappedReadFrom]
      rw [dif_neg (by omega)]
      exact (List.drop_eq_nil_of_le (by omega)).symm
    | succ k ih =>
      intro pos h
      rw [mappedReadFrom]
      by_cases hlt : pos < content.length
      · rw [dif_pos hlt, ih (pos + 1) (by omega)]
        rw [List.getD_eq_getElem content 0 hlt]
        exact (List.drop_eq_getElem_cons hlt).symm
      · rw [dif_neg hlt]
        exact (List.drop_eq_nil_of_le (by omega)).symm
  exact fun pos => key (content.length - pos) pos le_rfl

theorem mappedReadAll_eq (content : List Nat) : mappedReadAll content = content := by
  rw [mappedReadAll, mappedReadFrom_eq]
  rfl

theorem formatLoop_break (o : Opts) (maxLen : Nat) :
    ∀ (pre : List (Counter × InputDataObject)) (x : Counter × InputDataObject)
      (post : List (Counter × InputDataObject)),
    (∀ y ∈ pre, y.2.healthy = true) → x.2.healthy = false →
    formatLoop o maxLen (pre ++ x :: post) =
      ((pre.map fun y => renderLine o maxLen y.1 y.2).flatten ++ x.2.errMsg ++ ['\n'],
        true) := by
  intro pre
  induction pre with
  | nil =>
    intro x post _ hx
    simp [formatLoop, hx]
  | cons y pre ih =>
    intro x post hpre hx
    have hy : y.2.healthy = true := hpre y (by simp)
    simp only [List.cons_append, formatLoop, hy, if_true, List.append_eq]
    rw [ih x post (fun z hz => hpre z (by simp [hz])) hx]
    simp [List.append_assoc]

theorem parse_fold_objects (openResult : List Char → Option (List Char)) :
    ∀ (args : List (List Char)) (o : Opts) (es : List InputDataObject)
      (o' : Opts) (es' : List InputDataObject),
    args.foldlM (parseStep openResult) (o, es) = Except.ok (o', es') →
    es' = es ++ (args.filter fun a => !startsWithDash a).map
      (addInputFile openResult) := by
  intro args
  induction args with
  | nil =>
    intro o es o' es' h
    simp only [List.foldlM_nil] at h
    obtain ⟨rfl, rfl⟩ : o = o' ∧ es = es' := by
      have : (o, es) = (o', es') := by simpa [pure, Except.pure] using h
      exact ⟨congrArg Prod.fst this, congrArg Prod.snd this⟩
    simp
  | cons a args ih =>
    intro o es o' es' h
    rw [List.foldlM_cons] at h
    by_cases hd : startsWithDash a = true
    · rw [show parseStep openResult (o, es) a =
          (processOption a o).map fun x => (x, es) by simp [parseStep, hd]] at h
      cases hp : processOption a o with
      | error e =>
        rw [hp] at h
        simp [Except.map, Except.bind, bind] at h
      | ok o₂ =>
        rw [hp] at h
        have h' : args.foldlM (parseStep openResult) (o₂, es) =
            Except.ok (o', es') := by
          simpa [Except.map, Except.bind, bind] using h
        rw [ih _ _ _ _ h']
        simp [List.filter_cons, hd]
    · rw [show parseStep openResult (o, es) a =
          Except.ok (o, es ++ [addInputFile openResult a]) by simp [parseStep, hd]] at h
      have h' : args.foldlM (parseStep openResult)
          (o, es ++ [addInputFile openResult a]) = Except.ok (o', es') := by
        simpa [bind, Except.bind] using h
      rw [ih _ _ _ _ h']
      simp [List.filter_cons, hd, List.append_assoc]

theorem doCount_eq_map (inputs : List (Bool × List Nat)) :
    doCount inputs =
      inputs.map fun p => if p.1 then countOne p.2 else Counter.zero := by
  have key : ∀ (inputs : List (Bool × List Nat)) (acc : List Counter),
      (inputs.foldl
        (fun (acc : List Counter × ChainState) inp =>
          let r := if inp.1 then runChain inp.2 acc.2 Counter.zero
                   else (acc.2, Counter.zero)
          (acc.1 ++ [r.2], chainReset))
        (acc, chainReset)).1 =
      acc ++ inputs.map fun p => if p.1 then countOne p.2 else Counter.zero := by
    intro inputs
    induction inputs with
    | nil => intro acc; simp
    | cons i rest ih =>
      intro acc
      simp only [List.foldl_cons, List.map_cons]
      rw [ih]
      by_cases hi : i.1 <;> simp [hi, countOne, List.append_assoc]
  simpa using key inputs []

/-! ## Claims -/

theorem Counter.ext' (a b : Counter) (h1 : a.lines = b.lines) (h2 : a.words = b.words)
    (h3 : a.multibyte = b.multibyte) (h4 : a.bytes = b.bytes) : a = b := by
  cases a; cases b; simp_all

/-- Claim C1 (code bug): the spec requires the driver to run the multibyte
concern's end-of-stream finalization, so that a 3-byte UTF-8 sequence
truncated to 2 bytes at EOF (`0xE2 0x82`) contributes exactly one unit to
`multibyteChars`.  The driver `doCount` (`processor.hpp:19-48`) never calls
`finalize`, so the truncated tail stays in the buffer and contributes 0;
`MultibyteStateMachine::finalize` itself (here `countFinal`), had it been
called, yields exactly 1, confirming the claim describes the intended
terminal-flush policy that the driver fails to invoke. -/
theorem C1_truncated_tail_dropped_by_driver :
    doCount [(true, [0xE2, 0x82])] = [⟨0, 1, 0, 2⟩] ∧
    (countFinal [0xE2, 0x82]).multibyte = 1 := by decide

/-- Claim C2: for every byte sequence fed through the counting chain, the
`bytes` field equals the number of bytes pulled for that input, regardless
of invalid or incomplete UTF-8 sequences seen by the multibyte counter (the
quantification is over all byte lists, including arbitrarily malformed
ones); end-of-stream finalization does not change it either. -/
theorem C2_bytes_equal_bytes_pulled (l : List Nat) :
    (countOne l).bytes = l.length ∧ (countFinal l).bytes = l.length := by
  rw [countOne_eq, countFinal_eq]
  exact ⟨rfl, rfl⟩

/-- Claim C3 (code bug): the spec requires pure-ASCII input to satisfy
`multibyteChars = bytes`.  On `"abc"` the driver `doCount` produces
`multibyte = 0` and `bytes = 3` because it never invokes `finalize`
(`processor.hpp:19-48`) and the 3-byte buffer never reaches the 4096-byte
flush threshold; the engine with its end-of-stream finalization
(`countFinal`) produces `multibyte = 3 = bytes`, matching the claim. -/
theorem C3_ascii_multibyte_dropped_by_driver :
    doCount [(true, [97, 98, 99])] = [⟨0, 1, 0, 3⟩] ∧
    countFinal [97, 98, 99] = ⟨0, 1, 3, 3⟩ := by decide

/-- The default rendered option set {lines, words, bytes}. -/
def defaultOpts : Opts := ⟨true, true, false, true⟩

/-- Sample healthy input `a.txt` with 3 bytes of content. -/
def sampleA : Counter × InputDataObject :=
  (countOne [104, 105, 10], ⟨true, [], false, "a.txt".data⟩)

/-- Sample unopenable input `b.txt`: a placeholder stdin stream and an
unhealthy status, as `addInputFile` builds on failure. -/
def sampleBad : Counter × InputDataObject :=
  (Counter.zero, ⟨false, "b.txt: cannot open".data, true, "<stdin>".data⟩)

/-- Sample healthy input `c.txt` with 2 bytes of content. -/
def sampleC : Counter × InputDataObject :=
  (countOne [120, 10], ⟨true, [], false, "c.txt".data⟩)

/-- Claim C4, counterexample: with a healthy input after the failed one,
`formatFile` emits the failed input's error text but the later healthy
input's line does not appear at all (its name `c.txt` occurs nowhere in the
output), because the loop `break`s at the first unhealthy input
(`output_formatter.cpp:132-137`); the claim as stated promises the lines
for all healthy inputs still appear. -/
theorem C4_counterexample_formatFile_stops :
    ("b.txt: cannot open".data <:+:
        formatFile defaultOpts [sampleA, sampleBad, sampleC]) ∧
    ¬ ("c.txt".data <:+: formatFile defaultOpts [sampleA, sampleBad, sampleC]) := by
  decide

/-- Claim C4, amended: when a named input cannot be opened, the failure is
captured in that input's health status and every input is still processed
and counted by `doCount`; in the final output the healthy inputs preceding
the first failed input get their lines, then the failed input's error text
is printed, and formatting stops there — lines of later inputs and the
total row are omitted. -/
theorem C4_failed_input_reported_inline (o : Opts)
    (pre post : List (Counter × InputDataObject)) (x : Counter × InputDataObject)
    (hpre : ∀ y ∈ pre, y.2.healthy = true) (hx : x.2.healthy = false) :
    formatFile o (pre ++ x :: post) =
      (pre.map fun y => renderLine o
        (toChars (totalCounter ((pre ++ x :: post).map Prod.fst)).bytes).length
        y.1 y.2).flatten ++ x.2.errMsg ++ ['\n'] ∧
    ∀ inputs : List (Bool × List Nat),
      doCount inputs = inputs.map fun p => if p.1 then countOne p.2 else Counter.zero := by
  constructor
  · simp only [formatFile]
    rw [formatLoop_break o _ pre x post hpre hx]
    simp
  · exact doCount_eq_map

/-- Witness for C4: the amended statement applied to the sample inputs. -/
theorem C4_witness :
    formatFile defaultOpts ([sampleA] ++ sampleBad :: [sampleC]) =
      ([sampleA].map fun y => renderLine defaultOpts
        (toChars (totalCounter (([sampleA] ++ sampleBad :: [sampleC]).map
          Prod.fst)).bytes).length y.1 y.2).flatten ++
        sampleBad.2.errMsg ++ ['\n'] ∧
    ∀ inputs : List (Bool × List Nat),
      doCount inputs = inputs.map fun p => if p.1 then countOne p.2 else Counter.zero :=
  C4_failed_input_reported_inline defaultOpts [sampleA] [sampleC] sampleBad
    (by decide) (by decide)

/-- Claim C5, counterexample: on a locale-construction failure the process
outcome is 0, not non-zero — `main` (`main.cpp:7-25`) catches the exception,
prints its message and falls through to `return 0`.  The claim as stated
demands a non-zero outcome. -/
theorem C5_counterexample_exit_code_zero :
    (mainRun false ⟨true, true, false, true⟩
      [(⟨true, [], true, "<stdin>".data⟩, [97, 98])]).2 = 0 := rfl

/-- Claim C5, amended: if the multibyte decoding locale cannot be
constructed, the run is aborted before any input is processed — the output
is exactly the single top-level error message (independent of the inputs,
so no partial per-input output is emitted) — but the process exit code is
0, because `main` catches the exception and still returns 0. -/
theorem C5_locale_failure_aborts_run (o : Opts)
    (inputs : List (InputDataObject × List Nat)) :
    mainRun false o inputs = ("Failed to create UTF-8 locale".data ++ ['\n'], 0) := rfl

/-- Claim C6, counterexample: the claim promises that splitting anywhere
except inside a multi-byte UTF-8 sequence preserves the field-wise sum.
Splitting `"ab"` at offset 1 — a UTF-8 sequence boundary between two ASCII
bytes — gives `words = 1 + 1 = 2` against `1` for the whole stream; and for
the invalid input `0xFF 0xFF`, splitting at offset 1 — which is not inside
any multi-byte sequence, as `0xFF` starts none — gives `multibyte = 1 + 1`
against `1` for the whole stream. -/
theorem C6_counterexample_split :
    (countFinal [97] + countFinal [98] ≠ countFinal [97, 98]) ∧
    validU [97] = true ∧ validU [98] = true ∧
    (countFinal [255] + countFinal [255]).multibyte ≠
      (countFinal [255, 255]).multibyte := by decide

/-- Claim C6, amended: the `bytes` and `lines` fields are additive across
every split; and for inputs that are entirely structurally valid UTF-8,
splitting on a UTF-8 sequence boundary (both halves valid) at a point not
inside a word (one side empty or whitespace-adjacent) makes the whole
record additive: the field-wise sum of two independently reset,
individually finalized engine runs equals the single-stream run. -/
theorem C6_split_roundtrip (l1 l2 : List Nat) :
    ((countFinal (l1 ++ l2)).bytes = (countFinal l1).bytes + (countFinal l2).bytes ∧
     (countFinal (l1 ++ l2)).lines = (countFinal l1).lines + (countFinal l2).lines) ∧
    (validU l1 = true → validU l2 = true → splitOutsideWord l1 l2 = true →
      countFinal l1 + countFinal l2 = countFinal (l1 ++ l2)) := by
  refine ⟨⟨?_, ?_⟩, ?_⟩
  · rw [countFinal_eq, countFinal_eq, countFinal_eq]
    simp
  · rw [countFinal_eq, countFinal_eq, countFinal_eq]
    simp [List.count_append]
  · intro h1 h2 h3
    rw [countFinal_valid l1 h1, countFinal_valid l2 h2,
      countFinal_valid (l1 ++ l2) (validU_append _ _ h1 h2)]
    apply Counter.ext'
    · simp [List.count_append]
    · simp [wcount_split l1 l2 h3]
    · simp [wideSize_append_of_valid l1 h1 l2]
    · simp

/-- Witness for C6: the amended round-trip at the concrete split
`"h "` / `"w"`, which is valid UTF-8 on both sides and whitespace-adjacent. -/
theorem C6_witness :
    countFinal [104, 32] + countFinal [119] = countFinal ([104, 32] ++ [119]) :=
  (C6_split_roundtrip [104, 32] [119]).2 (by decide) (by decide) (by decide)

/-- Claim C7: the `lines` field equals the number of `0x0A` bytes in the
input — carriage returns (or any other byte) are not counted, and a
trailing unterminated line adds nothing, since only `\n` bytes are ever
counted (`LineStateMachine::updateCounter`). -/
theorem C7_lines_count_newlines (l : List Nat) : (countOne l).lines = l.count 10 := by
  rw [countOne_eq]

/-- Claim C8: the `words` field equals the number of maximal runs of
non-whitespace bytes (`runCount`, the spec-side definition via whitespace
chunking), where whitespace is the C locale's `isspace` on the ASCII range;
the counter increments exactly on whitespace-to-non-whitespace
transitions (`WordStateMachine::updateCounter`). -/
theorem C8_words_count_maximal_runs (l : List Nat) :
    (countOne l).words = runCount l := by
  rw [countOne_eq]
  exact (wcount_chunks l).1

/-- Claim C9: `createInputStream(filename)` selects the strategy purely by
file size against the fixed 100 MiB threshold — strictly below uses the
buffered strategy, at or above uses the memory-mapped strategy — and both
strategies deliver the same byte sequence for the same content, hence
identical counts. -/
theorem C9_strategy_chosen_by_size (n : Nat) (content : List Nat) :
    (n < MAX_MEMORY_MAPPED_FILE_SIZE → createInputStream n = StreamKind.buffered) ∧
    (MAX_MEMORY_MAPPED_FILE_SIZE ≤ n → createInputStream n = StreamKind.mapped) ∧
    countOne (bufferedReadAll content) = countOne (mappedReadAll content) := by
  refine ⟨fun h => ?_, fun h => ?_, ?_⟩
  · simp [createInputStream, h]
  · simp [createInputStream, Nat.not_lt.mpr h]
  · rw [bufferedReadAll, mappedReadAll_eq]

/-- Witness for C9: a 5-byte file is buffered, an exactly-100 MiB file is
mapped, and a concrete content yields equal counts under both reads. -/
theorem C9_witness :
    createInputStream 5 = StreamKind.buffered ∧
    createInputStream 104857600 = StreamKind.mapped ∧
    countOne (bufferedReadAll [97, 10]) = countOne (mappedReadAll [97, 10]) :=
  ⟨(C9_strategy_chosen_by_size 5 []).1 (by decide),
   (C9_strategy_chosen_by_size 104857600 []).2.1 (by decide),
   (C9_strategy_chosen_by_size 0 [97, 10]).2.2⟩

/-- Claim C10: after a successful `parseArguments`, the input list is never
empty; with no file-path arguments it is exactly the single standard-input
object appended by `addStdin`, and with at least one file-path argument
(openable or not) it is exactly one object per file-path argument — so
`addStdin` appends nothing. -/
theorem C10_inputs_never_empty (openResult : List Char → Option (List Char))
    (argv : List (List Char)) (o : Opts) (es : List InputDataObject)
    (h : parseArguments openResult argv = Except.ok (o, es)) :
    es ≠ [] ∧ (fileArgs argv = [] → es = [stdinObject]) ∧
    (fileArgs argv ≠ [] → es = (fileArgs argv).map (addInputFile openResult)) := by
  unfold parseArguments at h
  cases hf : (argv.drop 1).foldlM (parseStep openResult) (Opts.none, []) with
  | error e =>
    rw [hf] at h
    simp [Except.map] at h
  | ok st =>
    rw [hf] at h
    obtain ⟨o2, es2⟩ := st
    have hes2 : es2 = (fileArgs argv).map (addInputFile openResult) := by
      have := parse_fold_objects openResult (argv.drop 1) Opts.none [] o2 es2 hf
      simpa [fileArgs] using this
    have hes : es = addStdin es2 := by
      have hp : (normalizeFormattingOptions o2, addStdin es2) = (o, es) := by
        simpa [Except.map] using h
      exact (congrArg Prod.snd hp).symm
    by_cases hemp : fileArgs argv = []
    · have : es2 = [] := by simp [hes2, hemp]
      refine ⟨?_, fun _ => ?_, fun hne => absurd hemp hne⟩
      · rw [hes, this]
        simp [addStdin, stdinObject]
      · rw [hes, this]
        simp [addStdin]
    · obtain ⟨a, fa, hfa⟩ : ∃ a fa, fileArgs argv = a :: fa := by
        cases hq : fileArgs argv with
        | nil => exact absurd hq hemp
        | cons a fa => exact ⟨a, fa, rfl⟩
      have hne2 : es2 ≠ [] := by
        rw [hes2, hfa]
        simp
      have heq : es = es2 := by
        rw [hes, addStdin, if_neg (by simpa [List.isEmpty_iff] using hne2)]
      refine ⟨by rw [heq]; exact hne2, fun hq => absurd hq hemp, fun _ => ?_⟩
      rw [heq, hes2]

/-- Witness for C10: `ccwc a.txt` parses to exactly one (successfully
opened) file object and no standard-input object. -/
theorem C10_witness :
    (([(⟨true, [], false, "a.txt".data⟩ : InputDataObject)] :
        List InputDataObject) ≠ [] ∧
     (fileArgs ["ccwc".data, "a.txt".data] = [] →
        [(⟨true, [], false, "a.txt".data⟩ : InputDataObject)] = [stdinObject]) ∧
     (fileArgs ["ccwc".data, "a.txt".data] ≠ [] →
        [(⟨true, [], false, "a.txt".data⟩ : InputDataObject)] =
          (fileArgs ["ccwc".data, "a.txt".data]).map
            (addInputFile fun _ => Option.none))) :=
  C10_inputs_never_empty (fun _ => Option.none) ["ccwc".data, "a.txt".data]
    ⟨true, true, false, true⟩ [⟨true, [], false, "a.txt".data⟩] (by rfl)

end Ccwc
